import Mathlib

/-
Verification development for the PC Cleaner and Organizer script
(pc_cleaner_organizer.py). The two core components are embedded as pure
Lean functions over an explicit filesystem model:

- the Classifier/Mover (organize_files): scans the immediate regular
  files of a source directory, classifies each by lowercased extension,
  optionally deletes exact-content duplicates via a per-run hash index,
  and relocates files into category subfolders with collision-safe
  naming;
- the Temp Purger (clean_temp_files): after an interactive confirmation
  gate, walks each configured temp location bottom-up, deleting files
  and then subdirectories, accumulating a count and a byte total.

Filesystem effects are modelled by explicit state passing. Operations
that the Python code wraps in try/except carry a success flag on the
file record (readable for hashing, movable for shutil.move, deletable
for os.remove inside the purger walk); the one destructive operation the
code does not guard, the duplicate os.remove in organize_files, is
modelled by a removable flag whose failure propagates as an Except
error, exactly as an uncaught Python exception would.
-/

/-- Byte content of a file, the input of the md5 content hash. The hash
is modelled as the content itself, which encodes the standard assumption
that md5 is collision-free on the files at hand. -/
abbrev Content := List Nat

/-- A regular file as seen by the Classifier/Mover: a name, a byte
content, and success flags for the three filesystem operations applied
to it (hash read, shutil.move, the unguarded duplicate os.remove). -/
structure SFile where
  name : String
  content : Content
  readable : Bool
  movable : Bool
  removable : Bool
deriving DecidableEq, Repr

/-- The source directory: its immediate regular files in enumeration
order, and its immediate subdirectories with their regular files. The
os.listdir loop skips every non-file entry, so subdirectories are kept
apart from the file list; category folders are subdirectories of the
source directory. -/
structure SDir where
  files : List SFile
  subdirs : List (String × List SFile)
deriving DecidableEq, Repr

/-- Lookup in an association list by key, first match wins. Models both
dictionary key access and name lookup inside a directory listing. -/
def alook {κ α : Type} [DecidableEq κ] (k : κ) : List (κ × α) → Option α
  | [] => none
  | (a, v) :: rest => if a = k then some v else alook k rest

/-- Python str.lower, applied characterwise to the extension. -/
def strLower (s : String) : String := ⟨s.data.map Char.toLower⟩

/-- Python os.path.splitext restricted to a bare filename: split at the
last dot, provided some earlier character of the name is not a dot, so a
leading-dot hidden file has no extension. The extension keeps the dot. -/
def splitext (s : String) : String × String :=
  let cs := s.data
  let extLen := (cs.reverse.takeWhile (fun c => c ≠ '.')).length
  if extLen = cs.length then (s, "")
  else
    let k := cs.length - extLen - 1
    if (cs.take k).any (fun c => c ≠ '.') then (⟨cs.take k⟩, ⟨cs.drop k⟩)
    else (s, "")

/-- The FILE_CATEGORIES table of the script, in declaration order. -/
def FILE_CATEGORIES : List (String × List String) :=
  [("Images", [".jpg", ".jpeg", ".png", ".gif", ".bmp"]),
   ("Documents", [".pdf", ".doc", ".docx", ".txt", ".xlsx"]),
   ("Videos", [".mp4", ".mkv", ".avi"]),
   ("Music", [".mp3", ".wav"]),
   ("Archives", [".zip", ".rar", ".tar"]),
   ("Others", [])]

/-- The category loop of organize_files: first category whose extension
set contains the extension; the default when nothing matches. -/
def catGo : List (String × List String) → String → String
  | [], _ => "Others"
  | (cat, exts) :: rest, e => if e ∈ exts then cat else catGo rest e

/-- Category assigned to a lowercased extension. -/
def categoryFor (e : String) : String := catGo FILE_CATEGORIES e

/-- Category assigned to a filename, lines 63 to 68 of the script. -/
def catOfFile (f : SFile) : String := categoryFor (strLower (splitext f.name).2)

/-- get_file_hash: the md5 digest of the file content, or None when
reading raises (the try/except of lines 37 to 45). -/
def get_file_hash (f : SFile) : Option Content :=
  if f.readable then some f.content else none

/-- os.makedirs with exist_ok: append an empty directory entry unless
the name already exists. -/
def makedirs (cats : List (String × List SFile)) (c : String) :
    List (String × List SFile) :=
  match alook c cats with
  | some _ => cats
  | none => cats ++ [(c, [])]

/-- Append a file to the contents of the named directory entry. Models
the effect of shutil.move into that directory. -/
def addToDir : List (String × List SFile) → String → SFile → List (String × List SFile)
  | [], _, _ => []
  | (n, l) :: rest, c, f =>
    if n = c then (n, l ++ [f]) :: rest else (n, l) :: addToDir rest c f

/-- Decimal digit character, as produced by Python string formatting. -/
def digitChar : Nat → Char
  | 0 => '0'
  | 1 => '1'
  | 2 => '2'
  | 3 => '3'
  | 4 => '4'
  | 5 => '5'
  | 6 => '6'
  | 7 => '7'
  | 8 => '8'
  | 9 => '9'
  | _ => '?'

/-- Decimal digit list of a natural number, most significant first. -/
def natToDigits (n : Nat) : List Char :=
  if _h : n < 10 then [digitChar n]
  else natToDigits (n / 10) ++ [digitChar (n % 10)]
decreasing_by exact Nat.div_lt_self (by omega) (by omega)

/-- Decimal rendering of a counter value, as an f-string would print. -/
def natStr (n : Nat) : String := ⟨natToDigits n⟩

/-- The candidate name of collision avoidance: base, underscore,
counter, extension. -/
def numName (base ext : String) (k : Nat) : String :=
  base ++ "_" ++ natStr k ++ ext

/-- os.path.exists at a name inside a directory listing. -/
def existsName (l : List SFile) (nm : String) : Bool :=
  l.any (fun g => g.name == nm)

/-- The while loop of lines 91 to 93: try base_k with k counting up from
the given value, return the first candidate that does not exist. The
fuel bound is one more than the listing length, which a pigeonhole
argument below shows is never exhausted. -/
def collideLoop (l : List SFile) (base ext : String) : Nat → Nat → String
  | 0, k => numName base ext k
  | fuel + 1, k =>
    if existsName l (numName base ext k) then collideLoop l base ext fuel (k + 1)
    else numName base ext k

/-- Destination naming of lines 86 to 93: keep the filename when free,
otherwise append _1, _2 and so on before the extension. -/
def destName (l : List SFile) (nm : String) : String :=
  if existsName l nm then
    let be := splitext nm
    collideLoop l be.1 be.2 (l.length + 1) 1
  else nm

/-- State threaded through the organize_files loop: the category
directories under the source directory, the per-run hash index, the
files still sitting at top level (a failed move leaves its file in
place), and the two counters. -/
structure OrgState where
  cats : List (String × List SFile)
  hashes : List (Content × String)
  leftover : List SFile
  moved : Nat
  dups : Nat
deriving DecidableEq, Repr

/-- The move block of lines 86 to 101: compute a collision-free
destination name inside the category directory, then shutil.move; on
failure the error is caught and the file stays at top level. -/
def moveStep (st : OrgState) (category : String) (f : SFile) : OrgState :=
  let l := (alook category st.cats).getD []
  let dest := destName l f.name
  if f.movable then
    { st with
      cats := addToDir st.cats category ⟨dest, f.content, f.readable, f.movable, f.removable⟩,
      moved := st.moved + 1 }
  else { st with leftover := st.leftover ++ [f] }

/-- One iteration of the loop of lines 59 to 101 on a regular file:
classify, ensure the category directory, optionally hash and handle
duplicates, then move. The duplicate os.remove of line 79 is not inside
a try block, so its failure escapes as an error carrying the state at
the raise point. -/
def processFile (b : Bool) (st : OrgState) (f : SFile) : Except OrgState OrgState :=
  let category := catOfFile f
  let cats := makedirs st.cats category
  if b then
    match get_file_hash f with
    | some h =>
      if (alook h st.hashes).isSome then
        if f.removable then Except.ok { st with cats := cats, dups := st.dups + 1 }
        else Except.error { st with cats := cats }
      else
        Except.ok (moveStep { st with cats := cats, hashes := st.hashes ++ [(h, f.name)] }
          category f)
    | none => Except.ok (moveStep { st with cats := cats } category f)
  else Except.ok (moveStep { st with cats := cats } category f)

/-- The whole loop over the os.listdir snapshot. An uncaught exception
aborts the remaining iterations; the raising file and the unprocessed
rest stay at top level. -/
def runFiles (b : Bool) (st : OrgState) : List SFile → Except OrgState OrgState
  | [] => Except.ok st
  | f :: fs =>
    match processFile b st f with
    | Except.ok st' => runFiles b st' fs
    | Except.error st' => Except.error { st' with leftover := st'.leftover ++ f :: fs }

/-- organize_files, lines 47 to 103. The input none stands for a source
directory that does not exist; the ok result carries the directory after
the run and the two returned counters; the error result carries the
directory state when the uncaught duplicate os.remove raised. -/
def organize_files (src : Option SDir) (b : Bool) :
    Except SDir (Option SDir × Nat × Nat) :=
  match src with
  | none => Except.ok (none, 0, 0)
  | some d =>
    match runFiles b ⟨d.subdirs, [], [], 0, 0⟩ d.files with
    | Except.ok r => Except.ok (some ⟨r.leftover, r.cats⟩, r.moved, r.dups)
    | Except.error r => Except.error ⟨r.leftover, r.cats⟩

/-- A node of a temp-location tree: a regular file with a size and a
flag telling whether os.remove succeeds on it, or a directory with
children. -/
inductive FTree where
  | file (name : String) (size : Nat) (deletable : Bool)
  | dir (name : String) (children : List FTree)

mutual

/-- Successful os.remove count and byte total over one subtree of the
bottom-up walk of lines 123 to 133: every file node gets exactly one
os.remove attempt. -/
def treeDeleted : FTree → Nat × Nat
  | FTree.file _ sz d => if d then (1, sz) else (0, 0)
  | FTree.dir _ cs => forestDeleted cs

/-- Successful os.remove count and byte total over a list of subtrees. -/
def forestDeleted : List FTree → Nat × Nat
  | [] => (0, 0)
  | t :: ts =>
    let a := treeDeleted t
    let b := forestDeleted ts
    (a.1 + b.1, a.2 + b.2)

end

mutual

/-- Residue of best-effort removal of one subtree, as the combination of
the per-file os.remove pass and the shutil.rmtree with ignore_errors of
line 137 leaves it: none when everything inside went away. -/
def rmtree1 : FTree → Option FTree
  | FTree.file n sz d => if d then none else some (FTree.file n sz d)
  | FTree.dir n cs =>
    match rmforest cs with
    | [] => none
    | cs' => some (FTree.dir n cs')

/-- Residue of best-effort removal of a list of subtrees. -/
def rmforest : List FTree → List FTree
  | [] => []
  | t :: ts =>
    match rmtree1 t with
    | none => rmforest ts
    | some t' => t' :: rmforest ts

end

mutual

/-- Flattened list of the file nodes of a subtree: size and
deletability, in walk order. Independent characterization used to state
what the purger counters mean. -/
def treeFiles : FTree → List (Nat × Bool)
  | FTree.file _ sz d => [(sz, d)]
  | FTree.dir _ cs => forestFiles cs

/-- Flattened file nodes of a list of subtrees. -/
def forestFiles : List FTree → List (Nat × Bool)
  | [] => []
  | t :: ts => treeFiles t ++ forestFiles ts

end

/-- Environment-dependent pieces of the TEMP_DIRS table: the results of
os.path.expandvars and os.path.expanduser on the configured templates. -/
structure OSEnv where
  winTemp : String
  winRecent : String
  homeCache : String
  libCaches : String
deriving DecidableEq, Repr

/-- The TEMP_DIRS table of lines 29 to 33, one entry per OS family. -/
def TEMP_DIRS (env : OSEnv) : List (String × List String) :=
  [("Windows", [env.winTemp, env.winRecent]),
   ("Linux", ["/tmp", env.homeCache]),
   ("Darwin", [env.libCaches, "/private/var/tmp"])]

/-- Filesystem seen by the purger: each path either does not exist or is
a directory with a list of child trees. -/
abbrev TFS := String → Option (List FTree)

/-- Processing of one configured temp location, lines 120 to 141: a
location that does not exist is skipped; otherwise every file node of
the tree gets an os.remove attempt and the counters accumulate the
successful ones, while the directory sweep leaves only the undeletable
residue behind. -/
def purgeStep (acc : (Nat × Nat) × TFS) (p : String) : (Nat × Nat) × TFS :=
  match acc.2 p with
  | none => acc
  | some cs =>
    ((acc.1.1 + (forestDeleted cs).1, acc.1.2 + (forestDeleted cs).2),
     fun q => if q = p then some (rmforest cs) else acc.2 q)

/-- clean_temp_files, lines 105 to 142: resolve the OS family (unknown
families give the empty location list), gate on the lowercased
interactive answer, then purge each configured location in order. The
pair of counters and the filesystem after the run are returned. -/
def clean_temp_files (env : OSEnv) (system : String) (confirm : String) (fs : TFS) :
    (Nat × Nat) × TFS :=
  let temp_dirs := (alook system (TEMP_DIRS env)).getD []
  if strLower confirm ≠ "y" then ((0, 0), fs)
  else temp_dirs.foldl purgeStep ((0, 0), fs)

/-- Number of deletable entries in a flattened file listing: the
independent meaning of the purger file counter. -/
def specCount (ps : List (Nat × Bool)) : Nat := (ps.filter (fun p => p.2)).length

/-- Byte total of the deletable entries in a flattened file listing. -/
def specBytes (ps : List (Nat × Bool)) : Nat :=
  ((ps.filter (fun p => p.2)).map (fun p => p.1)).sum

/-- Per-location deletion outcome stated independently of the walk: the
deletable files of the flattened tree of an existing location. -/
def locSpec (fs : TFS) (p : String) : Nat × Nat :=
  match fs p with
  | none => (0, 0)
  | some cs => (specCount (forestFiles cs), specBytes (forestFiles cs))

/-- Whether some file named n sits inside some category directory. -/
def nameInCats (cats : List (String × List SFile)) (n : String) : Bool :=
  cats.any (fun p => p.2.any (fun g => g.name == n))

/-- Number of files named n across all category directories. -/
def nameCountCats (cats : List (String × List SFile)) (n : String) : Nat :=
  (cats.map (fun p => p.2.countP (fun g => g.name == n))).sum

/-- Total number of files in a directory, top level plus subfolders. -/
def totalFiles (d : SDir) : Nat :=
  d.files.length + (d.subdirs.map (fun p => p.2.length)).sum

theorem alook_cons_self {κ α : Type} [DecidableEq κ] (a : κ) (v : α)
    (rest : List (κ × α)) : alook a ((a, v) :: rest) = some v := by
  simp [alook]

theorem alook_cons_ne {κ α : Type} [DecidableEq κ] {a k : κ} (h : a ≠ k) (v : α)
    (rest : List (κ × α)) : alook k ((a, v) :: rest) = alook k rest := by
  simp [alook, h]

theorem addToDir_cons_self (a : String) (w : List SFile) (rest : List (String × List SFile))
    (f : SFile) : addToDir ((a, w) :: rest) a f = (a, w ++ [f]) :: rest := by
  simp [addToDir]

theorem addToDir_cons_ne {a c : String} (h : a ≠ c) (w : List SFile)
    (rest : List (String × List SFile)) (f : SFile) :
    addToDir ((a, w) :: rest) c f = (a, w) :: addToDir rest c f := by
  simp [addToDir, h]

theorem nameInCats_cons (a : String) (w : List SFile) (rest : List (String × List SFile))
    (n : String) :
    nameInCats ((a, w) :: rest) n = ((w.any fun g => g.name == n) || nameInCats rest n) := by
  simp [nameInCats]

theorem nameCountCats_cons (a : String) (w : List SFile) (rest : List (String × List SFile))
    (n : String) :
    nameCountCats ((a, w) :: rest) n
      = (w.countP fun g => g.name == n) + nameCountCats rest n := by
  simp [nameCountCats]

theorem alook_append_of_some {κ α : Type} [DecidableEq κ] {k : κ} {ps : List (κ × α)}
    {v : α} (qs : List (κ × α)) (h : alook k ps = some v) : alook k (ps ++ qs) = some v := by
  induction ps with
  | nil => simp [alook] at h
  | cons p rest ih =>
    obtain ⟨a, w⟩ := p
    by_cases hk : a = k
    · subst hk
      rw [alook_cons_self] at h
      rw [List.cons_append, alook_cons_self]
      exact h
    · rw [alook_cons_ne hk] at h
      rw [List.cons_append, alook_cons_ne hk]
      exact ih h

theorem alook_append_of_none {κ α : Type} [DecidableEq κ] {k : κ} {ps : List (κ × α)}
    (qs : List (κ × α)) (h : alook k ps = none) : alook k (ps ++ qs) = alook k qs := by
  induction ps with
  | nil => rfl
  | cons p rest ih =>
    obtain ⟨a, w⟩ := p
    by_cases hk : a = k
    · subst hk
      rw [alook_cons_self] at h
      exact absurd h (by simp)
    · rw [alook_cons_ne hk] at h
      rw [List.cons_append, alook_cons_ne hk]
      exact ih h

theorem alook_makedirs_self (cats : List (String × List SFile)) (c : String) :
    alook c (makedirs cats c) = some ((alook c cats).getD []) := by
  cases h : alook c cats with
  | some l => simp [makedirs, h]
  | none =>
    simp only [makedirs, h, Option.getD_none]
    rw [alook_append_of_none _ h, alook_cons_self]

theorem alook_addToDir_self {cats : List (String × List SFile)} {c : String}
    {l : List SFile} (h : alook c cats = some l) (f : SFile) :
    alook c (addToDir cats c f) = some (l ++ [f]) := by
  induction cats with
  | nil => simp [alook] at h
  | cons p rest ih =>
    obtain ⟨a, w⟩ := p
    by_cases hk : a = c
    · subst hk
      rw [alook_cons_self] at h
      injection h with h
      subst h
      rw [addToDir_cons_self, alook_cons_self]
    · rw [alook_cons_ne hk] at h
      rw [addToDir_cons_ne hk, alook_cons_ne hk]
      exact ih h

theorem alook_mem {cats : List (String × List SFile)} {c : String} {l : List SFile}
    (h : alook c cats = some l) : (c, l) ∈ cats := by
  induction cats with
  | nil => simp [alook] at h
  | cons p rest ih =>
    obtain ⟨a, w⟩ := p
    by_cases hk : a = c
    · subst hk
      rw [alook_cons_self] at h
      injection h with h
      subst h
      exact List.mem_cons_self _ _
    · rw [alook_cons_ne hk] at h
      exact List.mem_cons_of_mem _ (ih h)

theorem alook_none_iff {κ α : Type} [DecidableEq κ] {k : κ} {ps : List (κ × α)} :
    alook k ps = none ↔ k ∉ ps.map Prod.fst := by
  induction ps with
  | nil => simp [alook]
  | cons p rest ih =>
    obtain ⟨a, w⟩ := p
    by_cases hk : a = k
    · subst hk
      rw [alook_cons_self]
      simp
    · rw [alook_cons_ne hk]
      simp [ih, Ne.symm hk]

theorem nameInCats_makedirs (cats : List (String × List SFile)) (c n : String) :
    nameInCats (makedirs cats c) n = nameInCats cats n := by
  cases h : alook c cats with
  | some l => simp [makedirs, h]
  | none => simp [makedirs, h, nameInCats]

theorem existsName_eq_false_of_nameInCats {cats : List (String × List SFile)}
    {n : String} (hn : nameInCats cats n = false) {c : String} {l : List SFile}
    (h : alook c cats = some l) : existsName l n = false := by
  have hm := alook_mem h
  unfold nameInCats at hn
  rw [List.any_eq_false] at hn
  have h2 := hn _ hm
  unfold existsName
  simpa using h2

theorem nameInCats_addToDir {cats : List (String × List SFile)} {c n : String}
    {f : SFile} (h : nameInCats (addToDir cats c f) n = true) :
    nameInCats cats n = true ∨ f.name = n := by
  induction cats with
  | nil => simp [addToDir, nameInCats] at h
  | cons p rest ih =>
    obtain ⟨a, w⟩ := p
    by_cases hk : a = c
    · subst hk
      rw [addToDir_cons_self, nameInCats_cons] at h
      rw [nameInCats_cons]
      rw [Bool.or_eq_true] at h
      rcases h with h | h
      · rw [List.any_append, Bool.or_eq_true] at h
        rcases h with h | h
        · exact Or.inl (by rw [Bool.or_eq_true]; exact Or.inl h)
        · right
          simpa using h
      · exact Or.inl (by rw [Bool.or_eq_true]; exact Or.inr h)
    · rw [addToDir_cons_ne hk, nameInCats_cons] at h
      rw [nameInCats_cons]
      rw [Bool.or_eq_true] at h
      rcases h with h | h
      · exact Or.inl (by rw [Bool.or_eq_true]; exact Or.inl h)
      · rcases ih h with h2 | h2
        · exact Or.inl (by rw [Bool.or_eq_true]; exact Or.inr h2)
        · exact Or.inr h2

theorem nameCountCats_makedirs (cats : List (String × List SFile)) (c n : String) :
    nameCountCats (makedirs cats c) n = nameCountCats cats n := by
  cases h : alook c cats with
  | some l => simp [makedirs, h]
  | none => simp [makedirs, h, nameCountCats]

theorem nameCountCats_addToDir {cats : List (String × List SFile)} {c : String}
    (hs : (alook c cats).isSome = true) (f : SFile) (n : String) :
    nameCountCats (addToDir cats c f) n
      = nameCountCats cats n + (if f.name = n then 1 else 0) := by
  induction cats with
  | nil => simp [alook] at hs
  | cons p rest ih =>
    obtain ⟨a, w⟩ := p
    by_cases hk : a = c
    · subst hk
      rw [addToDir_cons_self, nameCountCats_cons, nameCountCats_cons, List.countP_append]
      by_cases hf : f.name = n
      · simp [List.countP_cons, hf]
        omega
      · simp [List.countP_cons, (by simpa using hf : (f.name == n) = false)]
        exact hf
    · rw [alook_cons_ne hk] at hs
      rw [addToDir_cons_ne hk, nameCountCats_cons, nameCountCats_cons, ih hs]
      omega

theorem processFile_false (st : OrgState) (f : SFile) :
    processFile false st f
      = Except.ok (moveStep { st with cats := makedirs st.cats (catOfFile f) }
          (catOfFile f) f) := rfl

theorem processFile_unreadable (st : OrgState) (f : SFile) (hr : f.readable = false) :
    processFile true st f
      = Except.ok (moveStep { st with cats := makedirs st.cats (catOfFile f) }
          (catOfFile f) f) := by
  simp [processFile, get_file_hash, hr]

theorem processFile_dup_hit (st : OrgState) (f : SFile) (hr : f.readable = true)
    (hh : (alook f.content st.hashes).isSome = true) (hrem : f.removable = true) :
    processFile true st f
      = Except.ok { st with cats := makedirs st.cats (catOfFile f), dups := st.dups + 1 } := by
  simp [processFile, get_file_hash, hr, hh, hrem]

theorem processFile_dup_raise (st : OrgState) (f : SFile) (hr : f.readable = true)
    (hh : (alook f.content st.hashes).isSome = true) (hrem : f.removable = false) :
    processFile true st f
      = Except.error { st with cats := makedirs st.cats (catOfFile f) } := by
  simp [processFile, get_file_hash, hr, hh, hrem]

theorem processFile_new_hash (st : OrgState) (f : SFile) (hr : f.readable = true)
    (hh : (alook f.content st.hashes).isSome = false) :
    processFile true st f
      = Except.ok (moveStep
          { st with
            cats := makedirs st.cats (catOfFile f),
            hashes := st.hashes ++ [(f.content, f.name)] }
          (catOfFile f) f) := by
  simp [processFile, get_file_hash, hr, hh]

theorem moveStep_movable (st : OrgState) (c : String) {f : SFile} (hm : f.movable = true) :
    moveStep st c f
      = { st with
          cats := addToDir st.cats c
            ⟨destName ((alook c st.cats).getD []) f.name,
             f.content, f.readable, f.movable, f.removable⟩,
          moved := st.moved + 1 } := by
  simp [moveStep, hm]

theorem moveStep_unmovable (st : OrgState) (c : String) {f : SFile} (hm : f.movable = false) :
    moveStep st c f = { st with leftover := st.leftover ++ [f] } := by
  simp [moveStep, hm]

theorem moveStep_counts (st : OrgState) (c : String) (f : SFile) :
    (moveStep st c f).moved + (moveStep st c f).dups + (moveStep st c f).leftover.length
      = st.moved + st.dups + st.leftover.length + 1 := by
  cases hm : f.movable
  · simp [moveStep_unmovable st c hm]
    omega
  · simp [moveStep_movable st c hm]
    omega

theorem moveStep_hashes (st : OrgState) (c : String) (f : SFile) :
    (moveStep st c f).hashes = st.hashes := by
  cases hm : f.movable
  · simp [moveStep_unmovable st c hm]
  · simp [moveStep_movable st c hm]

theorem moveStep_leftover {f : SFile} (st : OrgState) (c : String) (hm : f.movable = true) :
    (moveStep st c f).leftover = st.leftover := by
  simp [moveStep_movable st c hm]

/-- Extension order on category-directory states: every directory that
exists keeps its contents as a prefix. Each loop iteration only appends
files and creates empty directories, so states only grow. -/
def CatsExt (cs cs' : List (String × List SFile)) : Prop :=
  ∀ c l, alook c cs = some l → ∃ t, alook c cs' = some (l ++ t)

theorem catsExt_refl (cs : List (String × List SFile)) : CatsExt cs cs :=
  fun _ l h => ⟨[], by simpa using h⟩

theorem catsExt_trans {a b c : List (String × List SFile)}
    (h1 : CatsExt a b) (h2 : CatsExt b c) : CatsExt a c := by
  intro k l h
  obtain ⟨t, ht⟩ := h1 k l h
  obtain ⟨u, hu⟩ := h2 k (l ++ t) ht
  exact ⟨t ++ u, by rw [hu, List.append_assoc]⟩

theorem catsExt_makedirs (cats : List (String × List SFile)) (c : String) :
    CatsExt cats (makedirs cats c) := by
  intro c' l h
  cases h2 : alook c cats with
  | some w => exact ⟨[], by simpa [makedirs, h2] using h⟩
  | none =>
    refine ⟨[], ?_⟩
    simp only [makedirs, h2]
    rw [alook_append_of_some _ h]
    simp

theorem catsExt_addToDir (cats : List (String × List SFile)) (c : String) (f : SFile) :
    CatsExt cats (addToDir cats c f) := by
  induction cats with
  | nil => intro c' l h; simp [alook] at h
  | cons p rest ih =>
    obtain ⟨a, w⟩ := p
    intro c' l h
    by_cases hk : a = c
    · subst hk
      rw [addToDir_cons_self]
      by_cases hc : a = c'
      · subst hc
        rw [alook_cons_self] at h
        injection h with h
        subst h
        exact ⟨[f], by rw [alook_cons_self]⟩
      · rw [alook_cons_ne hc] at h
        rw [alook_cons_ne hc]
        exact ⟨[], by simpa using h⟩
    · rw [addToDir_cons_ne hk]
      by_cases hc : a = c'
      · subst hc
        rw [alook_cons_self] at h
        injection h with h
        subst h
        exact ⟨[], by rw [alook_cons_self]; simp⟩
      · rw [alook_cons_ne hc] at h
        rw [alook_cons_ne hc]
        exact ih c' l h

theorem catsExt_moveStep (st : OrgState) (c : String) (f : SFile) :
    CatsExt st.cats (moveStep st c f).cats := by
  cases hm : f.movable
  · rw [moveStep_unmovable st c hm]
    exact catsExt_refl _
  · rw [moveStep_movable st c hm]
    exact catsExt_addToDir _ _ _

theorem catsExt_processFile {b : Bool} {st : OrgState} {f : SFile} {st' : OrgState}
    (h : processFile b st f = Except.ok st') : CatsExt st.cats st'.cats := by
  have base : CatsExt st.cats (makedirs st.cats (catOfFile f)) := catsExt_makedirs _ _
  cases b with
  | false =>
    rw [processFile_false] at h
    injection h with h
    subst h
    exact catsExt_trans base
      (catsExt_moveStep { st with cats := makedirs st.cats (catOfFile f) } (catOfFile f) f)
  | true =>
    cases hr : f.readable with
    | false =>
      rw [processFile_unreadable st f hr] at h
      injection h with h
      subst h
      exact catsExt_trans base
        (catsExt_moveStep { st with cats := makedirs st.cats (catOfFile f) } (catOfFile f) f)
    | true =>
      cases hh : (alook f.content st.hashes).isSome with
      | false =>
        rw [processFile_new_hash st f hr hh] at h
        injection h with h
        subst h
        exact catsExt_trans base
          (catsExt_moveStep
            { st with
              cats := makedirs st.cats (catOfFile f),
              hashes := st.hashes ++ [(f.content, f.name)] }
            (catOfFile f) f)
      | true =>
        cases hrem : f.removable with
        | false =>
          rw [processFile_dup_raise st f hr hh hrem] at h
          exact absurd h (by simp)
        | true =>
          rw [processFile_dup_hit st f hr hh hrem] at h
          injection h with h
          subst h
          exact base

theorem catsExt_runFiles {b : Bool} : ∀ (fs : List SFile) (st R : OrgState),
    runFiles b st fs = Except.ok R → CatsExt st.cats R.cats := by
  intro fs
  induction fs with
  | nil =>
    intro st R h
    injection h with h
    subst h
    exact catsExt_refl _
  | cons f fs ih =>
    intro st R h
    unfold runFiles at h
    cases hp : processFile b st f with
    | ok st' =>
      rw [hp] at h
      exact catsExt_trans (catsExt_processFile hp) (ih st' R h)
    | error st' =>
      rw [hp] at h
      exact absurd h (by simp)

theorem processFile_cases (b : Bool) (st : OrgState) (f : SFile) :
    processFile b st f
        = Except.ok (moveStep { st with cats := makedirs st.cats (catOfFile f) }
            (catOfFile f) f)
      ∨ ((alook f.content st.hashes).isSome = false
          ∧ processFile b st f
            = Except.ok (moveStep
                { st with
                  cats := makedirs st.cats (catOfFile f),
                  hashes := st.hashes ++ [(f.content, f.name)] }
                (catOfFile f) f))
      ∨ (f.removable = true
          ∧ processFile b st f
            = Except.ok
                { st with
                  cats := makedirs st.cats (catOfFile f),
                  dups := st.dups + 1 })
      ∨ (f.removable = false
          ∧ processFile b st f
            = Except.error { st with cats := makedirs st.cats (catOfFile f) }) := by
  cases b with
  | false => exact Or.inl (processFile_false st f)
  | true =>
    cases hr : f.readable with
    | false => exact Or.inl (processFile_unreadable st f hr)
    | true =>
      cases hh : (alook f.content st.hashes).isSome with
      | false => exact Or.inr (Or.inl ⟨rfl, processFile_new_hash st f hr hh⟩)
      | true =>
        cases hrem : f.removable with
        | true => exact Or.inr (Or.inr (Or.inl ⟨rfl, processFile_dup_hit st f hr hh hrem⟩))
        | false => exact Or.inr (Or.inr (Or.inr ⟨rfl, processFile_dup_raise st f hr hh hrem⟩))

theorem processFile_ok_counts {b : Bool} {st : OrgState} {f : SFile} {st' : OrgState}
    (h : processFile b st f = Except.ok st') :
    st'.moved + st'.dups + st'.leftover.length
      = st.moved + st.dups + st.leftover.length + 1 := by
  rcases processFile_cases b st f with hc | ⟨_, hc⟩ | ⟨_, hc⟩ | ⟨_, hc⟩
  · rw [hc] at h
    injection h with h
    subst h
    simpa using
      moveStep_counts { st with cats := makedirs st.cats (catOfFile f) } (catOfFile f) f
  · rw [hc] at h
    injection h with h
    subst h
    simpa using
      moveStep_counts
        { st with
          cats := makedirs st.cats (catOfFile f),
          hashes := st.hashes ++ [(f.content, f.name)] }
        (catOfFile f) f
  · rw [hc] at h
    injection h with h
    subst h
    simp
    omega
  · rw [hc] at h
    exact absurd h (by simp)

theorem processFile_ok_of_removable {b : Bool} {st : OrgState} {f : SFile}
    (hrem : f.removable = true) : ∃ st', processFile b st f = Except.ok st' := by
  rcases processFile_cases b st f with hc | ⟨_, hc⟩ | ⟨_, hc⟩ | ⟨hf, _⟩
  · exact ⟨_, hc⟩
  · exact ⟨_, hc⟩
  · exact ⟨_, hc⟩
  · rw [hrem] at hf
    cases hf

theorem processFile_ok_leftover {b : Bool} {st : OrgState} {f : SFile} {st' : OrgState}
    (hm : f.movable = true) (h : processFile b st f = Except.ok st') :
    st'.leftover = st.leftover := by
  rcases processFile_cases b st f with hc | ⟨_, hc⟩ | ⟨_, hc⟩ | ⟨_, hc⟩
  · rw [hc] at h
    injection h with h
    subst h
    simpa using
      moveStep_leftover { st with cats := makedirs st.cats (catOfFile f) } (catOfFile f) hm
  · rw [hc] at h
    injection h with h
    subst h
    simpa using
      moveStep_leftover
        { st with
          cats := makedirs st.cats (catOfFile f),
          hashes := st.hashes ++ [(f.content, f.name)] }
        (catOfFile f) hm
  · rw [hc] at h
    injection h with h
    subst h
    rfl
  · rw [hc] at h
    exact absurd h (by simp)

theorem processFile_ok_hashes {b : Bool} {st : OrgState} {f : SFile} {st' : OrgState}
    (h : processFile b st f = Except.ok st') :
    st'.hashes = st.hashes
      ∨ (st'.hashes = st.hashes ++ [(f.content, f.name)]
          ∧ alook f.content st.hashes = none) := by
  rcases processFile_cases b st f with hc | ⟨hh, hc⟩ | ⟨_, hc⟩ | ⟨_, hc⟩
  · rw [hc] at h
    injection h with h
    subst h
    exact Or.inl (by
      simpa using
        moveStep_hashes { st with cats := makedirs st.cats (catOfFile f) } (catOfFile f) f)
  · rw [hc] at h
    injection h with h
    subst h
    refine Or.inr ⟨?_, ?_⟩
    · simpa using
        moveStep_hashes
          { st with
            cats := makedirs st.cats (catOfFile f),
            hashes := st.hashes ++ [(f.content, f.name)] }
          (catOfFile f) f
    · cases halo : alook f.content st.hashes with
      | none => rfl
      | some v => rw [halo] at hh; simp at hh
  · rw [hc] at h
    injection h with h
    subst h
    exact Or.inl rfl
  · rw [hc] at h
    exact absurd h (by simp)

theorem runFiles_removable_ok {b : Bool} : ∀ (fs : List SFile) (st : OrgState),
    (∀ f ∈ fs, f.removable = true) →
    ∃ R, runFiles b st fs = Except.ok R ∧
      R.moved + R.dups + R.leftover.length
        = st.moved + st.dups + st.leftover.length + fs.length := by
  intro fs
  induction fs with
  | nil => exact fun st _ => ⟨st, rfl, by simp⟩
  | cons f fs ih =>
    intro st hrem
    obtain ⟨st', hst'⟩ :=
      @processFile_ok_of_removable b st f (hrem f (List.mem_cons_self _ _))
    obtain ⟨R, hR, hsum⟩ := ih st' (fun g hg => hrem g (List.mem_cons_of_mem _ hg))
    refine ⟨R, ?_, ?_⟩
    · unfold runFiles
      rw [hst']
      exact hR
    · have h1 := processFile_ok_counts hst'
      simp only [List.length_cons]
      omega

theorem runFiles_ok_leftover {b : Bool} : ∀ (fs : List SFile) (st R : OrgState),
    runFiles b st fs = Except.ok R → (∀ f ∈ fs, f.movable = true) →
    R.leftover = st.leftover := by
  intro fs
  induction fs with
  | nil =>
    intro st R h _
    injection h with h
    subst h
    rfl
  | cons f fs ih =>
    intro st R h hmov
    unfold runFiles at h
    cases hp : processFile b st f with
    | ok st' =>
      rw [hp] at h
      rw [ih st' R h (fun g hg => hmov g (List.mem_cons_of_mem _ hg))]
      exact processFile_ok_leftover (hmov f (List.mem_cons_self _ _)) hp
    | error st' =>
      rw [hp] at h
      exact absurd h (by simp)

theorem runFiles_ok_hashKeys_nodup {b : Bool} : ∀ (fs : List SFile) (st R : OrgState),
    runFiles b st fs = Except.ok R → (st.hashes.map Prod.fst).Nodup →
    (R.hashes.map Prod.fst).Nodup := by
  intro fs
  induction fs with
  | nil =>
    intro st R h hnd
    injection h with h
    subst h
    exact hnd
  | cons f fs ih =>
    intro st R h hnd
    unfold runFiles at h
    cases hp : processFile b st f with
    | ok st' =>
      rw [hp] at h
      refine ih st' R h ?_
      rcases processFile_ok_hashes hp with he | ⟨he, hnone⟩
      · rw [he]
        exact hnd
      · rw [he, List.map_append]
        simp only [List.map_cons, List.map_nil]
        rw [List.nodup_append]
        refine ⟨hnd, List.nodup_singleton _, ?_⟩
        intro a ha hb
        simp only [List.mem_singleton] at hb
        subst hb
        exact (alook_none_iff.mp hnone) ha
    | error st' =>
      rw [hp] at h
      exact absurd h (by simp)

theorem destName_of_not_exists {l : List SFile} {nm : String}
    (h : existsName l nm = false) : destName l nm = nm := by
  simp [destName, h]

theorem moveStep_no_collision (st : OrgState) (c : String) {f : SFile}
    (hm : f.movable = true)
    (hne : existsName ((alook c st.cats).getD []) f.name = false) :
    moveStep st c f = { st with cats := addToDir st.cats c f, moved := st.moved + 1 } := by
  rw [moveStep_movable st c hm, destName_of_not_exists hne]

theorem runFiles_classify : ∀ (fs : List SFile) (st : OrgState),
    (∀ f ∈ fs, f.movable = true) →
    ((fs.map fun f => f.name).Nodup) →
    (∀ f ∈ fs, nameInCats st.cats f.name = false) →
    ∃ R, runFiles false st fs = Except.ok R ∧
      R.moved = st.moved + fs.length ∧ R.dups = st.dups ∧ R.leftover = st.leftover ∧
      (∀ n, (∀ f ∈ fs, f.name ≠ n) → nameCountCats R.cats n = nameCountCats st.cats n) ∧
      (∀ f ∈ fs,
        nameCountCats R.cats f.name = nameCountCats st.cats f.name + 1 ∧
        ∃ l, alook (catOfFile f) R.cats = some l ∧ f ∈ l) := by
  intro fs
  induction fs with
  | nil =>
    intro st _ _ _
    exact ⟨st, rfl, by simp, rfl, rfl, fun n _ => rfl, by simp⟩
  | cons f fs ih =>
    intro st hmov hnd hnic
    rw [List.map_cons, List.nodup_cons] at hnd
    obtain ⟨hfn, hndt⟩ := hnd
    have hmf : f.movable = true := hmov f (List.mem_cons_self _ _)
    have hnf : nameInCats st.cats f.name = false := hnic f (List.mem_cons_self _ _)
    have hcats1 := alook_makedirs_self st.cats (catOfFile f)
    have hnf1 : nameInCats (makedirs st.cats (catOfFile f)) f.name = false := by
      rw [nameInCats_makedirs]
      exact hnf
    have hne : existsName ((alook (catOfFile f) st.cats).getD []) f.name = false :=
      existsName_eq_false_of_nameInCats hnf1 hcats1
    have hne2 : existsName ((alook (catOfFile f) (makedirs st.cats (catOfFile f))).getD [])
        f.name = false := by
      rw [hcats1, Option.getD_some]
      exact hne
    have hsome : (alook (catOfFile f) (makedirs st.cats (catOfFile f))).isSome = true := by
      rw [hcats1]
      rfl
    have hstep :=
      moveStep_no_collision { st with cats := makedirs st.cats (catOfFile f) }
        (catOfFile f) hmf hne2
    have hnic2 : ∀ g ∈ fs,
        nameInCats (addToDir (makedirs st.cats (catOfFile f)) (catOfFile f) f) g.name
          = false := by
      intro g hg
      by_contra hcon
      rw [Bool.not_eq_false] at hcon
      rcases nameInCats_addToDir hcon with h1 | h1
      · rw [nameInCats_makedirs, hnic g (List.mem_cons_of_mem _ hg)] at h1
        cases h1
      · apply hfn
        rw [h1]
        exact List.mem_map_of_mem _ hg
    obtain ⟨R, hR, hRm, hRd, hRl, hRcnt, hRmem⟩ :=
      ih { st with
           cats := addToDir (makedirs st.cats (catOfFile f)) (catOfFile f) f,
           moved := st.moved + 1 }
        (fun g hg => hmov g (List.mem_cons_of_mem _ hg)) hndt hnic2
    have hfs_ne : ∀ g ∈ fs, g.name ≠ f.name := by
      intro g hg hgn
      apply hfn
      rw [← hgn]
      exact List.mem_map_of_mem _ hg
    refine ⟨R, ?_, ?_, ?_, ?_, ?_, ?_⟩
    · show runFiles false st (f :: fs) = Except.ok R
      unfold runFiles
      rw [processFile_false, hstep]
      exact hR
    · rw [hRm, List.length_cons]
      show st.moved + 1 + fs.length = st.moved + (fs.length + 1)
      omega
    · exact hRd
    · exact hRl
    · intro n hn
      rw [hRcnt n (fun g hg => hn g (List.mem_cons_of_mem _ hg))]
      show nameCountCats (addToDir (makedirs st.cats (catOfFile f)) (catOfFile f) f) n
        = nameCountCats st.cats n
      rw [nameCountCats_addToDir hsome f n, nameCountCats_makedirs,
        if_neg (hn f (List.mem_cons_self _ _))]
      omega
    · intro g hg
      rcases List.mem_cons.mp hg with hgf | hgfs
      · subst hgf
        constructor
        · rw [hRcnt g.name (fun g' hg' => hfs_ne g' hg')]
          show nameCountCats (addToDir (makedirs st.cats (catOfFile g)) (catOfFile g) g) g.name
            = nameCountCats st.cats g.name + 1
          rw [nameCountCats_addToDir hsome g g.name, nameCountCats_makedirs, if_pos rfl]
        · have hadd :
              alook (catOfFile g)
                  (addToDir (makedirs st.cats (catOfFile g)) (catOfFile g) g)
                = some (((alook (catOfFile g) st.cats).getD []) ++ [g]) := by
            rw [alook_addToDir_self hcats1 g]
          obtain ⟨t, ht⟩ := catsExt_runFiles fs _ R hR (catOfFile g) _ hadd
          refine ⟨_, ht, ?_⟩
          simp
      · obtain ⟨hcnt, hmem⟩ := hRmem g hgfs
        constructor
        · rw [hcnt]
          show nameCountCats (addToDir (makedirs st.cats (catOfFile f)) (catOfFile f) f) g.name
              + 1
            = nameCountCats st.cats g.name + 1
          rw [nameCountCats_addToDir hsome f g.name, nameCountCats_makedirs,
            if_neg (fun he => hfs_ne g hgfs he.symm)]
        · exact hmem

theorem natToDigits_eq (n : Nat) :
    natToDigits n
      = if n < 10 then [digitChar n] else natToDigits (n / 10) ++ [digitChar (n % 10)] := by
  by_cases h : n < 10
  · rw [if_pos h]
    rw [natToDigits]
    rw [dif_pos h]
  · rw [if_neg h]
    rw [natToDigits]
    rw [dif_neg h]

theorem natToDigits_length_pos (n : Nat) : 0 < (natToDigits n).length := by
  rw [natToDigits_eq]
  by_cases h : n < 10
  · simp [h]
  · simp [h]

theorem digitChar_inj : ∀ m < 10, ∀ n < 10, digitChar m = digitChar n → m = n := by decide

theorem natToDigits_inj : ∀ m n : Nat, natToDigits m = natToDigits n → m = n := by
  intro m
  induction m using Nat.strong_induction_on with
  | _ m ih =>
    intro n h
    rw [natToDigits_eq m, natToDigits_eq n] at h
    by_cases hm : m < 10 <;> by_cases hn : n < 10
    · rw [if_pos hm, if_pos hn] at h
      injection h with h _
      exact digitChar_inj m hm n hn h
    · rw [if_pos hm, if_neg hn] at h
      have hlen := congrArg List.length h
      rw [List.length_append] at hlen
      simp only [List.length_cons, List.length_nil] at hlen
      have hp := natToDigits_length_pos (n / 10)
      omega
    · rw [if_neg hm, if_pos hn] at h
      have hlen := congrArg List.length h
      rw [List.length_append] at hlen
      simp only [List.length_cons, List.length_nil] at hlen
      have hp := natToDigits_length_pos (m / 10)
      omega
    · rw [if_neg hm, if_neg hn] at h
      obtain ⟨h1, h2⟩ := List.append_inj' h (by simp)
      injection h2 with h2 _
      have hd : m / 10 = n / 10 :=
        ih (m / 10) (Nat.div_lt_self (by omega) (by omega)) (n / 10) h1
      have hmod : m % 10 = n % 10 :=
        digitChar_inj _ (Nat.mod_lt _ (by omega)) _ (Nat.mod_lt _ (by omega)) h2
      omega

theorem numName_data (base ext : String) (k : Nat) :
    (numName base ext k).data = ((base.data ++ ['_']) ++ natToDigits k) ++ ext.data := rfl

theorem numName_inj (base ext : String) {k j : Nat}
    (h : numName base ext k = numName base ext j) : k = j := by
  have hd := congrArg String.data h
  rw [numName_data, numName_data] at hd
  have h1 := List.append_cancel_right hd
  have h2 := List.append_cancel_left h1
  exact natToDigits_inj _ _ h2

theorem existsName_iff {l : List SFile} {s : String} :
    existsName l s = true ↔ s ∈ l.map (fun g => g.name) := by
  simp [existsName, List.any_eq_true, List.mem_map]

theorem exists_fresh_numName (l : List SFile) (base ext : String) :
    ∃ k, 1 ≤ k ∧ k ≤ l.length + 1 ∧ existsName l (numName base ext k) = false := by
  by_contra hcon
  push_neg at hcon
  have hall : ∀ k ∈ Finset.Icc 1 (l.length + 1),
      numName base ext k ∈ l.map (fun g => g.name) := by
    intro k hk
    rw [Finset.mem_Icc] at hk
    have hne := hcon k hk.1 hk.2
    rw [← existsName_iff]
    cases hex : existsName l (numName base ext k)
    · exact absurd hex hne
    · rfl
  have hsub : (Finset.Icc 1 (l.length + 1)).image (fun k => numName base ext k)
      ⊆ (l.map (fun g => g.name)).toFinset := by
    intro s hs
    rw [Finset.mem_image] at hs
    obtain ⟨k, hk, hks⟩ := hs
    rw [List.mem_toFinset, ← hks]
    exact hall k hk
  have hcard := Finset.card_le_card hsub
  rw [Finset.card_image_of_injOn (fun a _ b _ hab => numName_inj base ext hab)] at hcard
  have h1 : (Finset.Icc 1 (l.length + 1)).card = l.length + 1 + 1 - 1 := Nat.card_Icc _ _
  have h2 := (l.map (fun g => g.name)).toFinset_card_le
  rw [List.length_map] at h2
  omega

theorem collideLoop_first (l : List SFile) (base ext : String) :
    ∀ (fuel k : Nat),
      (∃ j, k ≤ j ∧ j < k + fuel ∧ existsName l (numName base ext j) = false) →
      ∃ kf, k ≤ kf ∧ collideLoop l base ext fuel k = numName base ext kf ∧
        existsName l (numName base ext kf) = false ∧
        ∀ j, k ≤ j → j < kf → existsName l (numName base ext j) = true := by
  intro fuel
  induction fuel with
  | zero =>
    rintro k ⟨j, hj1, hj2, _⟩
    exfalso
    omega
  | succ fuel ih =>
    rintro k ⟨j, hj1, hj2, hj3⟩
    cases hex : existsName l (numName base ext k) with
    | false =>
      refine ⟨k, le_refl _, ?_, hex, ?_⟩
      · simp [collideLoop, hex]
      · intro j2 h1 h2
        exfalso
        omega
    | true =>
      have hjk : j ≠ k := by
        intro he
        rw [he, hex] at hj3
        cases hj3
      obtain ⟨kf, hk1, hk2, hk3, hk4⟩ := ih (k + 1) ⟨j, by omega, by omega, hj3⟩
      refine ⟨kf, by omega, ?_, hk3, ?_⟩
      · rw [show collideLoop l base ext (fuel + 1) k
              = collideLoop l base ext fuel (k + 1) from by simp [collideLoop, hex]]
        exact hk2
      · intro j2 h1 h2
        by_cases hj2k : j2 = k
        · rw [hj2k]
          exact hex
        · exact hk4 j2 (by omega) h2

theorem destName_not_exists (l : List SFile) (s : String) :
    existsName l (destName l s) = false := by
  cases hex : existsName l s with
  | false =>
    rw [destName_of_not_exists hex]
    exact hex
  | true =>
    obtain ⟨j, hj1, hj2, hj3⟩ := exists_fresh_numName l (splitext s).1 (splitext s).2
    obtain ⟨kf, _, hk2, hk3, _⟩ :=
      collideLoop_first l (splitext s).1 (splitext s).2 (l.length + 1) 1
        ⟨j, hj1, by omega, hj3⟩
    rw [show destName l s
          = collideLoop l (splitext s).1 (splitext s).2 (l.length + 1) 1 from by
        simp [destName, hex]]
    rw [hk2]
    exact hk3

theorem destName_first (l : List SFile) (nm : String) (hex : existsName l nm = true) :
    ∃ k, 1 ≤ k ∧ destName l nm = numName (splitext nm).1 (splitext nm).2 k ∧
      existsName l (numName (splitext nm).1 (splitext nm).2 k) = false ∧
      ∀ j, 1 ≤ j → j < k → existsName l (numName (splitext nm).1 (splitext nm).2 j) = true := by
  obtain ⟨j, hj1, hj2, hj3⟩ := exists_fresh_numName l (splitext nm).1 (splitext nm).2
  obtain ⟨kf, hk1, hk2, hk3, hk4⟩ :=
    collideLoop_first l (splitext nm).1 (splitext nm).2 (l.length + 1) 1
      ⟨j, hj1, by omega, hj3⟩
  refine ⟨kf, hk1, ?_, hk3, fun j2 ha hb => hk4 j2 ha hb⟩
  rw [show destName l nm
        = collideLoop l (splitext nm).1 (splitext nm).2 (l.length + 1) 1 from by
      simp [destName, hex]]
  exact hk2

mutual

theorem treeDeleted_spec : ∀ t : FTree,
    treeDeleted t = (specCount (treeFiles t), specBytes (treeFiles t))
  | FTree.file n sz d => by
    cases d <;> simp [treeDeleted, treeFiles, specCount, specBytes]
  | FTree.dir n cs => by
    rw [show treeDeleted (FTree.dir n cs) = forestDeleted cs from rfl,
      show treeFiles (FTree.dir n cs) = forestFiles cs from rfl]
    exact forestDeleted_spec cs

theorem forestDeleted_spec : ∀ cs : List FTree,
    forestDeleted cs = (specCount (forestFiles cs), specBytes (forestFiles cs))
  | [] => by simp [forestDeleted, forestFiles, specCount, specBytes]
  | t :: ts => by
    simp only [forestDeleted, forestFiles]
    rw [treeDeleted_spec t, forestDeleted_spec ts]
    simp [specCount, specBytes, List.filter_append]

end

theorem purge_fold_counts : ∀ (dirs : List String) (acc : (Nat × Nat) × TFS),
    dirs.Nodup →
    (dirs.foldl purgeStep acc).1
      = (acc.1.1 + (dirs.map (fun p => (locSpec acc.2 p).1)).sum,
         acc.1.2 + (dirs.map (fun p => (locSpec acc.2 p).2)).sum) := by
  intro dirs
  induction dirs with
  | nil =>
    intro acc _
    simp
  | cons p ps ih =>
    intro acc hnd
    rw [List.nodup_cons] at hnd
    obtain ⟨hp, hnds⟩ := hnd
    rw [List.foldl_cons]
    cases hcs : acc.2 p with
    | none =>
      have hstep : purgeStep acc p = acc := by simp [purgeStep, hcs]
      rw [hstep, ih acc hnds]
      simp only [List.map_cons, List.sum_cons, locSpec, hcs, Prod.mk.injEq]
      omega
    | some cs =>
      have hstep : purgeStep acc p
          = ((acc.1.1 + (forestDeleted cs).1, acc.1.2 + (forestDeleted cs).2),
             fun q => if q = p then some (rmforest cs) else acc.2 q) := by
        simp [purgeStep, hcs]
      rw [hstep, ih _ hnds]
      have hmap1 : ps.map (fun q =>
            (locSpec (fun q => if q = p then some (rmforest cs) else acc.2 q) q).1)
          = ps.map (fun q => (locSpec acc.2 q).1) := by
        apply List.map_congr_left
        intro q hq
        have hqp : q ≠ p := fun he => hp (he ▸ hq)
        simp [locSpec, hqp]
      have hmap2 : ps.map (fun q =>
            (locSpec (fun q => if q = p then some (rmforest cs) else acc.2 q) q).2)
          = ps.map (fun q => (locSpec acc.2 q).2) := by
        apply List.map_congr_left
        intro q hq
        have hqp : q ≠ p := fun he => hp (he ▸ hq)
        simp [locSpec, hqp]
      rw [hmap1, hmap2, forestDeleted_spec cs]
      simp only [List.map_cons, List.sum_cons, locSpec, hcs, Prod.mk.injEq]
      omega

theorem purge_fold_outside : ∀ (dirs : List String) (acc : (Nat × Nat) × TFS) (q : String),
    q ∉ dirs → (dirs.foldl purgeStep acc).2 q = acc.2 q := by
  intro dirs
  induction dirs with
  | nil =>
    intro acc q _
    rfl
  | cons p ps ih =>
    intro acc q hq
    rw [List.mem_cons, not_or] at hq
    rw [List.foldl_cons, ih _ q hq.2]
    cases hcs : acc.2 p with
    | none => simp [purgeStep, hcs]
    | some cs => simp [purgeStep, hcs, hq.1]

theorem purge_fold_isSome : ∀ (dirs : List String) (acc : (Nat × Nat) × TFS) (q : String),
    ((dirs.foldl purgeStep acc).2 q).isSome = (acc.2 q).isSome := by
  intro dirs
  induction dirs with
  | nil =>
    intro acc q
    rfl
  | cons p ps ih =>
    intro acc q
    rw [List.foldl_cons, ih]
    cases hcs : acc.2 p with
    | none => simp [purgeStep, hcs]
    | some cs =>
      by_cases hqp : q = p
      · subst hqp
        simp [purgeStep, hcs]
      · simp [purgeStep, hcs, hqp]

theorem clean_temp_declined (env : OSEnv) (sys confirm : String) (fs : TFS)
    (h : strLower confirm ≠ "y") : clean_temp_files env sys confirm fs = ((0, 0), fs) := by
  simp [clean_temp_files, h]

theorem clean_temp_confirmed (env : OSEnv) (sys confirm : String) (fs : TFS)
    (h : strLower confirm = "y") :
    clean_temp_files env sys confirm fs
      = ((alook sys (TEMP_DIRS env)).getD []).foldl purgeStep ((0, 0), fs) := by
  simp [clean_temp_files, h]

theorem catGo_others : ∀ (L : List (String × List String)) (e : String),
    (∀ p ∈ L, e ∉ p.2) → catGo L e = "Others" := by
  intro L
  induction L with
  | nil => intro e _; rfl
  | cons p rest ih =>
    intro e he
    obtain ⟨cat, exts⟩ := p
    show (if e ∈ exts then cat else catGo rest e) = "Others"
    rw [if_neg (he (cat, exts) (List.mem_cons_self _ _))]
    exact ih e (fun q hq => he q (List.mem_cons_of_mem _ hq))

theorem runFiles_nil (b : Bool) (st : OrgState) : runFiles b st [] = Except.ok st := rfl

theorem runFiles_cons_ok {b : Bool} {st : OrgState} {f : SFile} {st' : OrgState}
    (h : processFile b st f = Except.ok st') (fs : List SFile) :
    runFiles b st (f :: fs) = runFiles b st' fs := by
  have hu : runFiles b st (f :: fs)
      = match processFile b st f with
        | Except.ok st2 => runFiles b st2 fs
        | Except.error st2 =>
          Except.error { st2 with leftover := st2.leftover ++ f :: fs } := rfl
  rw [hu, h]

theorem moveStep_dups (st : OrgState) (c : String) (f : SFile) :
    (moveStep st c f).dups = st.dups := by
  cases hm : f.movable
  · simp [moveStep_unmovable st c hm]
  · simp [moveStep_movable st c hm]

theorem moveStep_moved_of_movable (st : OrgState) (c : String) {f : SFile}
    (hm : f.movable = true) : (moveStep st c f).moved = st.moved + 1 := by
  simp [moveStep_movable st c hm]

theorem moveStep_mem_of_movable (st : OrgState) (c : String) {f : SFile}
    (hm : f.movable = true) {l0 : List SFile} (hl : alook c st.cats = some l0) :
    ∃ l, alook c (moveStep st c f).cats = some l ∧ ∃ g, g ∈ l ∧ g.content = f.content := by
  rw [moveStep_movable st c hm]
  dsimp only
  refine ⟨_, alook_addToDir_self hl _, ?_⟩
  exact ⟨_, List.mem_append_right _ (List.mem_singleton.mpr rfl), rfl⟩

/-- C1: for a source directory of regular files only (distinct names, no
subfolders yet, all moves succeeding), one run of the Classifier/Mover
with duplicate deletion disabled leaves every original file existing
exactly once, inside the subfolder of its category, with nothing left at
top level, the moved counter equal to the number of files processed and
the duplicate counter zero; an extension outside every category set, in
particular an absent one, classifies as Others. -/
theorem C1_classifier_relocates_each_file (d : SDir)
    (hmov : ∀ f ∈ d.files, f.movable = true)
    (hnd : (d.files.map fun f => f.name).Nodup)
    (hsub : d.subdirs = []) :
    ∃ d', organize_files (some d) false = Except.ok (some d', d.files.length, 0) ∧
      d'.files = [] ∧
      (∀ f ∈ d.files,
        nameCountCats d'.subdirs f.name = 1 ∧
        ∃ l, alook (catOfFile f) d'.subdirs = some l ∧ f ∈ l) ∧
      (∀ e : String, (∀ p ∈ FILE_CATEGORIES, e ∉ p.2) → categoryFor e = "Others") := by
  obtain ⟨R, hR, hRm, hRd, hRl, hRcnt, hRmem⟩ :=
    runFiles_classify d.files ⟨d.subdirs, [], [], 0, 0⟩ hmov hnd
      (by
        intro f _
        show nameInCats d.subdirs f.name = false
        rw [hsub]
        rfl)
  have hm : R.moved = d.files.length := by simpa using hRm
  have hdp : R.dups = 0 := by simpa using hRd
  have hlo : R.leftover = [] := by simpa using hRl
  refine ⟨⟨R.leftover, R.cats⟩, ?_, hlo, ?_, ?_⟩
  · unfold organize_files
    dsimp only
    rw [hR]
    dsimp only
    rw [hm, hdp]
  · intro f hf
    obtain ⟨hcnt, hmem⟩ := hRmem f hf
    refine ⟨?_, hmem⟩
    rw [hcnt]
    show nameCountCats d.subdirs f.name + 1 = 1
    rw [hsub]
    rfl
  · intro e he
    exact catGo_others FILE_CATEGORIES e he

/-- Witness for C1: a directory with an image (uppercase extension) and
an extensionless file satisfies the hypotheses, and the conclusion holds
there. -/
theorem C1_witness :
    (∀ f ∈ (SDir.mk [⟨"photo.JPG", [1], true, true, true⟩,
        ⟨"notes", [2], true, true, true⟩] []).files, f.movable = true)
    ∧ ((SDir.mk [⟨"photo.JPG", [1], true, true, true⟩,
        ⟨"notes", [2], true, true, true⟩] []).files.map fun f => f.name).Nodup
    ∧ (∃ d', organize_files (some (SDir.mk [⟨"photo.JPG", [1], true, true, true⟩,
          ⟨"notes", [2], true, true, true⟩] [])) false
        = Except.ok (some d', (SDir.mk [⟨"photo.JPG", [1], true, true, true⟩,
            ⟨"notes", [2], true, true, true⟩] []).files.length, 0) ∧
      d'.files = [] ∧
      (∀ f ∈ (SDir.mk [⟨"photo.JPG", [1], true, true, true⟩,
          ⟨"notes", [2], true, true, true⟩] []).files,
        nameCountCats d'.subdirs f.name = 1 ∧
        ∃ l, alook (catOfFile f) d'.subdirs = some l ∧ f ∈ l) ∧
      (∀ e : String, (∀ p ∈ FILE_CATEGORIES, e ∉ p.2) → categoryFor e = "Others")) :=
  ⟨by decide, by decide,
    C1_classifier_relocates_each_file _ (by decide) (by decide) rfl⟩

/-- C5: when the source directory does not exist the Classifier/Mover
returns the zero counts without a fault and the filesystem is untouched. -/
theorem C5_missing_source_dir (b : Bool) :
    organize_files none b = Except.ok (none, 0, 0) := rfl

/-- C9: a second Classifier/Mover run right after a successful one that
moved every file finds no regular file at top level (relocated files sit
inside category subfolders, which the scan skips), so it moves zero
additional files, deletes zero duplicates, and leaves the directory as
it was. -/
theorem C9_second_run_moves_nothing (d d1 : SDir) (b : Bool) (m k : Nat)
    (hmov : ∀ f ∈ d.files, f.movable = true)
    (h1 : organize_files (some d) b = Except.ok (some d1, m, k)) :
    organize_files (some d1) b = Except.ok (some d1, 0, 0) := by
  unfold organize_files at h1
  dsimp only at h1
  cases hrun : runFiles b ⟨d.subdirs, [], [], 0, 0⟩ d.files with
  | ok R =>
    rw [hrun] at h1
    dsimp only at h1
    injection h1 with h1
    have h1a : some (SDir.mk R.leftover R.cats) = some d1 := congrArg Prod.fst h1
    injection h1a with h1a
    have hlo : R.leftover = [] := by
      simpa using runFiles_ok_leftover d.files _ R hrun hmov
    rw [← h1a, hlo]
    rfl
  | error R =>
    rw [hrun] at h1
    exact absurd h1 (by simp)

/-- Witness for C9: a one-file directory is organized once, and the
second run returns the directory unchanged with zero counts. -/
theorem C9_witness :
    (∀ f ∈ (SDir.mk [⟨"x.pdf", [1], true, true, true⟩] []).files, f.movable = true)
    ∧ organize_files (some (SDir.mk [⟨"x.pdf", [1], true, true, true⟩] [])) false
        = Except.ok (some (SDir.mk []
            [("Documents", [⟨"x.pdf", [1], true, true, true⟩])]), 1, 0)
    ∧ organize_files (some (SDir.mk []
          [("Documents", [⟨"x.pdf", [1], true, true, true⟩])])) false
        = Except.ok (some (SDir.mk []
            [("Documents", [⟨"x.pdf", [1], true, true, true⟩])]), 0, 0) := by
  have h1 : organize_files (some (SDir.mk [⟨"x.pdf", [1], true, true, true⟩] [])) false
      = Except.ok (some (SDir.mk []
          [("Documents", [⟨"x.pdf", [1], true, true, true⟩])]), 1, 0) := rfl
  exact ⟨by decide, h1,
    C9_second_run_moves_nothing _ _ false 1 0 (by decide) h1⟩

/-- C4 counterexample: a failing duplicate os.remove is not caught, so
the fault propagates out of the Classifier/Mover and aborts the batch,
contradicting the claim that every per-item delete failure is caught and
logged while the batch continues. -/
theorem C4_counterexample :
    organize_files (some (SDir.mk [⟨"a.txt", [3], true, true, true⟩,
        ⟨"b.txt", [3], true, true, false⟩] [])) true
      = Except.error (SDir.mk [⟨"b.txt", [3], true, true, false⟩]
          [("Documents", [⟨"a.txt", [3], true, true, true⟩])]) := rfl

/-- C4 amended: per-item hash and move failures inside the
Classifier/Mover are caught and the batch continues, every scanned file
ending up moved, deleted as a duplicate, or still in place; in the Temp
Purger each file of every tree gets its own os.remove attempt and a
failure only skips that entry. The exception is the duplicate os.remove
of the organizer, which is uncaught, so the guarantee holds whenever
every attempted duplicate deletion succeeds. -/
theorem C4_amended_no_uncaught_fault (d : SDir) (b : Bool)
    (hrem : ∀ f ∈ d.files, f.removable = true) :
    (∃ d' m k, organize_files (some d) b = Except.ok (some d', m, k) ∧
      m + k + d'.files.length = d.files.length) ∧
    (∀ cs : List FTree,
      forestDeleted cs = (specCount (forestFiles cs), specBytes (forestFiles cs))) := by
  constructor
  · obtain ⟨R, hR, hsum⟩ := runFiles_removable_ok d.files ⟨d.subdirs, [], [], 0, 0⟩ hrem
    refine ⟨⟨R.leftover, R.cats⟩, R.moved, R.dups, ?_, ?_⟩
    · unfold organize_files
      dsimp only
      rw [hR]
    · simpa using hsum
  · exact forestDeleted_spec

/-- Witness for C4 amended at a directory whose duplicate deletions all
succeed. -/
theorem C4_amended_witness :
    (∀ f ∈ (SDir.mk [⟨"a.txt", [3], true, true, true⟩,
        ⟨"b.txt", [3], true, true, true⟩] []).files, f.removable = true)
    ∧ ((∃ d' m k, organize_files (some (SDir.mk [⟨"a.txt", [3], true, true, true⟩,
          ⟨"b.txt", [3], true, true, true⟩] [])) true = Except.ok (some d', m, k) ∧
        m + k + d'.files.length
          = (SDir.mk [⟨"a.txt", [3], true, true, true⟩,
              ⟨"b.txt", [3], true, true, true⟩] []).files.length) ∧
      (∀ cs : List FTree,
        forestDeleted cs = (specCount (forestFiles cs), specBytes (forestFiles cs)))) :=
  ⟨by decide, C4_amended_no_uncaught_fault _ true (by decide)⟩

/-- C8: when hashing a file fails, the hash index is left unchanged, the
file is not counted or removed as a duplicate, and it is still moved
into its category folder. -/
theorem C8_hash_failure_still_moved (st : OrgState) (f : SFile)
    (hr : f.readable = false) (hm : f.movable = true) :
    ∃ st', processFile true st f = Except.ok st' ∧
      st'.hashes = st.hashes ∧ st'.dups = st.dups ∧ st'.moved = st.moved + 1 ∧
      st'.leftover = st.leftover ∧
      ∃ l, alook (catOfFile f) st'.cats = some l ∧ ∃ g, g ∈ l ∧ g.content = f.content := by
  refine ⟨moveStep { st with cats := makedirs st.cats (catOfFile f) } (catOfFile f) f,
    processFile_unreadable st f hr, ?_, ?_, ?_, ?_, ?_⟩
  · simpa using
      moveStep_hashes { st with cats := makedirs st.cats (catOfFile f) } (catOfFile f) f
  · simpa using
      moveStep_dups { st with cats := makedirs st.cats (catOfFile f) } (catOfFile f) f
  · simpa using
      moveStep_moved_of_movable { st with cats := makedirs st.cats (catOfFile f) }
        (catOfFile f) hm
  · simpa using
      moveStep_leftover { st with cats := makedirs st.cats (catOfFile f) } (catOfFile f) hm
  · exact moveStep_mem_of_movable { st with cats := makedirs st.cats (catOfFile f) }
      (catOfFile f) hm (alook_makedirs_self st.cats (catOfFile f))

/-- Witness for C8 at an unreadable image file and the empty state. -/
theorem C8_witness :
    ((⟨"broken.png", [5], false, true, true⟩ : SFile).readable = false)
    ∧ ((⟨"broken.png", [5], false, true, true⟩ : SFile).movable = true)
    ∧ ∃ st', processFile true ⟨[], [], [], 0, 0⟩ ⟨"broken.png", [5], false, true, true⟩
          = Except.ok st' ∧
        st'.hashes = (⟨[], [], [], 0, 0⟩ : OrgState).hashes
        ∧ st'.dups = (⟨[], [], [], 0, 0⟩ : OrgState).dups
        ∧ st'.moved = (⟨[], [], [], 0, 0⟩ : OrgState).moved + 1
        ∧ st'.leftover = (⟨[], [], [], 0, 0⟩ : OrgState).leftover
        ∧ ∃ l, alook (catOfFile ⟨"broken.png", [5], false, true, true⟩) st'.cats = some l ∧
            ∃ g, g ∈ l ∧ g.content = (⟨"broken.png", [5], false, true, true⟩ : SFile).content :=
  ⟨rfl, rfl, C8_hash_failure_still_moved _ _ rfl rfl⟩

/-- C3: when the computed destination name already exists in the
category directory, the mover returns the first candidate base_k.ext
with k counting up from 1 whose name is free, and the name it returns
never collides with an existing file, so nothing is overwritten. -/
theorem C3_collision_safe_naming (l : List SFile) (nm : String)
    (hex : existsName l nm = true) :
    (∀ s, existsName l (destName l s) = false) ∧
    ∃ k, 1 ≤ k ∧ destName l nm = numName (splitext nm).1 (splitext nm).2 k ∧
      existsName l (numName (splitext nm).1 (splitext nm).2 k) = false ∧
      ∀ j, 1 ≤ j → j < k →
        existsName l (numName (splitext nm).1 (splitext nm).2 j) = true :=
  ⟨destName_not_exists l, destName_first l nm hex⟩

/-- Witness for C3: a directory listing already holding name.ext and
name_1.ext collides with an incoming name.ext. -/
theorem C3_witness :
    existsName [⟨"name.ext", [1], true, true, true⟩,
        ⟨"name_1.ext", [2], true, true, true⟩] ("name.ext") = true
    ∧ ((∀ s, existsName [⟨"name.ext", [1], true, true, true⟩,
          ⟨"name_1.ext", [2], true, true, true⟩] (destName [⟨"name.ext", [1], true, true, true⟩,
          ⟨"name_1.ext", [2], true, true, true⟩] s) = false) ∧
      ∃ k, 1 ≤ k ∧ destName [⟨"name.ext", [1], true, true, true⟩,
          ⟨"name_1.ext", [2], true, true, true⟩] ("name.ext")
          = numName (splitext ("name.ext")).1 (splitext ("name.ext")).2 k ∧
        existsName [⟨"name.ext", [1], true, true, true⟩,
            ⟨"name_1.ext", [2], true, true, true⟩]
          (numName (splitext ("name.ext")).1 (splitext ("name.ext")).2 k) = false ∧
        ∀ j, 1 ≤ j → j < k →
          existsName [⟨"name.ext", [1], true, true, true⟩,
              ⟨"name_1.ext", [2], true, true, true⟩]
            (numName (splitext ("name.ext")).1 (splitext ("name.ext")).2 j) = true) :=
  ⟨by decide, C3_collision_safe_naming _ _ (by decide)⟩

/-- C6: declining the confirmation prompt makes the Temp Purger return
the zero counts with the filesystem exactly as it was. -/
theorem C6_decline_leaves_everything (env : OSEnv) (sys confirm : String) (fs : TFS)
    (h : strLower confirm ≠ "y") :
    clean_temp_files env sys confirm fs = ((0, 0), fs) :=
  clean_temp_declined env sys confirm fs h

/-- Witness for C6 with answer n on a Linux system holding one temp
file. -/
theorem C6_witness :
    (strLower ("n") ≠ "y")
    ∧ clean_temp_files ⟨"WT", "WR", "HC", "LC"⟩ ("Linux") ("n")
        (fun p => if p = "/tmp" then some [FTree.file ("junk") 4 true] else none)
      = ((0, 0), fun p => if p = "/tmp" then some [FTree.file ("junk") 4 true] else none) :=
  ⟨by decide, C6_decline_leaves_everything _ _ _ _ (by decide)⟩

/-- C7: after a confirmed purge over distinct configured locations, the
returned file count is the number of files of the flattened trees of the
existing locations whose deletion succeeds, and the byte total is the
sum of the sizes of those same files; a failing entry contributes
nothing and aborts nothing. -/
theorem C7_purge_counters (env : OSEnv) (sys confirm : String) (fs : TFS)
    (hy : strLower confirm = "y")
    (hnd : ((alook sys (TEMP_DIRS env)).getD []).Nodup) :
    (clean_temp_files env sys confirm fs).1
      = ((((alook sys (TEMP_DIRS env)).getD []).map (fun p => (locSpec fs p).1)).sum,
         (((alook sys (TEMP_DIRS env)).getD []).map (fun p => (locSpec fs p).2)).sum) := by
  rw [clean_temp_confirmed env sys confirm fs hy, purge_fold_counts _ _ hnd]
  simp

/-- Witness for C7: a Linux run over /tmp holding one deletable file,
one undeletable file and a subdirectory with a deletable file. -/
theorem C7_witness :
    (strLower ("y") = "y")
    ∧ ((alook ("Linux") (TEMP_DIRS ⟨"WT", "WR", "HC", "LC"⟩)).getD []).Nodup
    ∧ (clean_temp_files ⟨"WT", "WR", "HC", "LC"⟩ ("Linux") ("y")
          (fun p => if p = "/tmp" then some [FTree.file ("a") 5 true,
              FTree.file ("b") 2 false,
              FTree.dir ("d") [FTree.file ("c") 7 true]] else none)).1
      = ((((alook ("Linux") (TEMP_DIRS ⟨"WT", "WR", "HC", "LC"⟩)).getD []).map
            (fun p => (locSpec (fun p => if p = "/tmp" then some [FTree.file ("a") 5 true,
                FTree.file ("b") 2 false,
                FTree.dir ("d") [FTree.file ("c") 7 true]] else none) p).1)).sum,
         (((alook ("Linux") (TEMP_DIRS ⟨"WT", "WR", "HC", "LC"⟩)).getD []).map
            (fun p => (locSpec (fun p => if p = "/tmp" then some [FTree.file ("a") 5 true,
                FTree.file ("b") 2 false,
                FTree.dir ("d") [FTree.file ("c") 7 true]] else none) p).2)).sum) :=
  ⟨by decide, by decide, C7_purge_counters _ _ _ _ (by decide) (by decide)⟩

/-- C10: a confirmed purge never deletes a configured location itself:
every path that existed still exists afterwards, and every path outside
the configured location list is completely untouched. -/
theorem C10_locations_survive (env : OSEnv) (sys confirm : String) (fs : TFS)
    (hy : strLower confirm = "y") :
    (∀ p, (fs p).isSome = true →
      (((clean_temp_files env sys confirm fs).2) p).isSome = true) ∧
    (∀ p, p ∉ (alook sys (TEMP_DIRS env)).getD [] →
      (clean_temp_files env sys confirm fs).2 p = fs p) := by
  rw [clean_temp_confirmed env sys confirm fs hy]
  constructor
  · intro p hp
    rw [purge_fold_isSome]
    exact hp
  · intro p hp
    rw [purge_fold_outside _ _ p hp]

/-- Witness for C10: the Linux /tmp location with a deletable file still
exists after the purge, and an unrelated path keeps its contents. -/
theorem C10_witness :
    (strLower ("y") = "y")
    ∧ ((fun p => if p = "/tmp" then some [FTree.file ("junk") 4 true] else none :
        TFS) ("/tmp")).isSome = true
    ∧ (((clean_temp_files ⟨"WT", "WR", "HC", "LC"⟩ ("Linux") ("y")
          (fun p => if p = "/tmp" then some [FTree.file ("junk") 4 true] else none)).2)
        ("/tmp")).isSome = true := by
  refine ⟨by decide, by decide, ?_⟩
  exact (C10_locations_survive ⟨"WT", "WR", "HC", "LC"⟩ ("Linux") ("y")
    (fun p => if p = "/tmp" then some [FTree.file ("junk") 4 true] else none)
    (by decide)).1 ("/tmp") (by decide)

theorem makedirs_of_some {cats : List (String × List SFile)} {c : String}
    (h : (alook c cats).isSome = true) : makedirs cats c = cats := by
  cases halo : alook c cats with
  | none =>
    rw [halo] at h
    cases h
  | some w => simp [makedirs, halo]

theorem makedirs_of_none {cats : List (String × List SFile)} {c : String}
    (h : alook c cats = none) : makedirs cats c = cats ++ [(c, [])] := by
  simp [makedirs, h]

/-- C2: with duplicate detection on, a directory holding two readable
files of identical content and different names keeps exactly one file:
the first one in enumeration order survives inside its category folder,
the second is deleted before relocation, the counters are one move and
one duplicate, and, in any run, a hash key enters the per-run index at
most once. -/
theorem C2_duplicate_deleted (f g : SFile)
    (hc : g.content = f.content) (hn : f.name ≠ g.name)
    (hfr : f.readable = true) (hgr : g.readable = true)
    (hfm : f.movable = true) (hgrem : g.removable = true) :
    (∃ d', organize_files (some ⟨[f, g], []⟩) true = Except.ok (some d', 1, 1) ∧
      d'.files = [] ∧ totalFiles d' = 1 ∧
      ∃ l, alook (catOfFile f) d'.subdirs = some l ∧ f ∈ l ∧
        ∀ h2 ∈ l, h2.name ≠ g.name) ∧
    (∀ (dd : SDir) (b : Bool) (R : OrgState),
      runFiles b ⟨dd.subdirs, [], [], 0, 0⟩ dd.files = Except.ok R →
      (R.hashes.map Prod.fst).Nodup) := by
  constructor
  · have hside : existsName ((alook (catOfFile f) [(catOfFile f, [])]).getD []) f.name
        = false := by
      rw [alook_cons_self]
      rfl
    have hstep1 : moveStep ⟨[(catOfFile f, [])], [(f.content, f.name)], [], 0, 0⟩
        (catOfFile f) f = ⟨[(catOfFile f, [f])], [(f.content, f.name)], [], 1, 0⟩ := by
      rw [moveStep_no_collision ⟨[(catOfFile f, [])], [(f.content, f.name)], [], 0, 0⟩
        (catOfFile f) hfm hside]
      dsimp only
      rw [addToDir_cons_self]
      rfl
    have hA : processFile true ⟨[], [], [], 0, 0⟩ f
        = Except.ok ⟨[(catOfFile f, [f])], [(f.content, f.name)], [], 1, 0⟩ := by
      rw [processFile_new_hash ⟨[], [], [], 0, 0⟩ f hfr rfl]
      exact congrArg Except.ok hstep1
    have hhB : (alook g.content [(f.content, f.name)]).isSome = true := by
      rw [hc, alook_cons_self]
      rfl
    have hB : processFile true ⟨[(catOfFile f, [f])], [(f.content, f.name)], [], 1, 0⟩ g
        = Except.ok ⟨makedirs [(catOfFile f, [f])] (catOfFile g),
            [(f.content, f.name)], [], 1, 1⟩ := by
      rw [processFile_dup_hit _ g hgr hhB hgrem]
    have hrun : runFiles true ⟨[], [], [], 0, 0⟩ [f, g]
        = Except.ok ⟨makedirs [(catOfFile f, [f])] (catOfFile g),
            [(f.content, f.name)], [], 1, 1⟩ := by
      rw [runFiles_cons_ok hA, runFiles_cons_ok hB, runFiles_nil]
    have horg : organize_files (some ⟨[f, g], []⟩) true
        = Except.ok (some ⟨[], makedirs [(catOfFile f, [f])] (catOfFile g)⟩, 1, 1) := by
      unfold organize_files
      dsimp only
      rw [hrun]
    by_cases hcg : catOfFile g = catOfFile f
    · have hmk : makedirs [(catOfFile f, [f])] (catOfFile g) = [(catOfFile f, [f])] := by
        rw [hcg]
        exact makedirs_of_some (by rw [alook_cons_self]; rfl)
      refine ⟨⟨[], makedirs [(catOfFile f, [f])] (catOfFile g)⟩, horg, rfl, ?_, ?_⟩
      · simp [totalFiles, hmk]
      · refine ⟨[f], ?_, List.mem_singleton.mpr rfl, ?_⟩
        · show alook (catOfFile f) (makedirs [(catOfFile f, [f])] (catOfFile g)) = some [f]
          rw [hmk, alook_cons_self]
        · intro h2 hh2
          rw [List.mem_singleton] at hh2
          subst hh2
          exact hn
    · have hmk : makedirs [(catOfFile f, [f])] (catOfFile g)
          = [(catOfFile f, [f]), (catOfFile g, [])] := by
        rw [makedirs_of_none (by rw [alook_cons_ne (fun he => hcg he.symm)]; rfl)]
        rfl
      refine ⟨⟨[], makedirs [(catOfFile f, [f])] (catOfFile g)⟩, horg, rfl, ?_, ?_⟩
      · simp [totalFiles, hmk]
      · refine ⟨[f], ?_, List.mem_singleton.mpr rfl, ?_⟩
        · show alook (catOfFile f) (makedirs [(catOfFile f, [f])] (catOfFile g)) = some [f]
          rw [hmk, alook_cons_self]
        · intro h2 hh2
          rw [List.mem_singleton] at hh2
          subst hh2
          exact hn
  · intro dd b R h
    exact runFiles_ok_hashKeys_nodup dd.files _ R h (by simp)

/-- Witness for C2 at two same-content music files. -/
theorem C2_witness :
    ((⟨"b.mp3", [7], true, true, true⟩ : SFile).content
        = (⟨"a.mp3", [7], true, true, true⟩ : SFile).content)
    ∧ ((⟨"a.mp3", [7], true, true, true⟩ : SFile).name
        ≠ (⟨"b.mp3", [7], true, true, true⟩ : SFile).name)
    ∧ ((∃ d', organize_files (some ⟨[⟨"a.mp3", [7], true, true, true⟩,
          ⟨"b.mp3", [7], true, true, true⟩], []⟩) true = Except.ok (some d', 1, 1) ∧
        d'.files = [] ∧ totalFiles d' = 1 ∧
        ∃ l, alook (catOfFile ⟨"a.mp3", [7], true, true, true⟩) d'.subdirs = some l ∧
          (⟨"a.mp3", [7], true, true, true⟩ : SFile) ∈ l ∧
          ∀ h2 ∈ l, h2.name ≠ (⟨"b.mp3", [7], true, true, true⟩ : SFile).name) ∧
      (∀ (dd : SDir) (b : Bool) (R : OrgState),
        runFiles b ⟨dd.subdirs, [], [], 0, 0⟩ dd.files = Except.ok R →
        (R.hashes.map Prod.fst).Nodup)) :=
  ⟨rfl, by decide,
    C2_duplicate_deleted _ _ rfl (by decide) rfl rfl rfl rfl⟩
